import Mathlib

/-!
Verification development for the fakecam frame pipeline
(src/fakecam/fakecam/capture.py).

Images are modelled as nested lists of exact rationals: a pixel is the list
of its colour-channel values (BGR order, as OpenCV stores frames), a colour
image is a list of rows of pixels, and the single-channel segmentation mask
is a list of rows of rationals.  numpy float32 arithmetic is modelled by
exact rational arithmetic; the numpy unsafe float-to-uint8 store is modelled
by truncation toward zero followed by wraparound modulo 256 (the behaviour
of the C cast on mainstream platforms), and OpenCV saturate_cast by
round-then-clamp to [0, 255].
-/

namespace Fakecam

/-- A pixel: the list of its colour-channel values (BGR order). -/
abbrev Pix := List ℚ

/-- A single-channel matrix (e.g. the segmentation mask). -/
abbrev Mat := List (List ℚ)

/-- A colour image: a list of rows of pixels. -/
abbrev Image := List (List Pix)

/-- Width of a nested-list matrix: length of its first row (0 if empty).
OpenCV matrices are rectangular, so for well-formed inputs every row has
this length. -/
def matW {α : Type} (m : List (List α)) : ℕ := (m.headD []).length

/-- Entry of a single-channel matrix, 0 outside bounds. -/
def matAt (m : Mat) (i j : ℕ) : ℚ := (m.getD i []).getD j 0

/-- Pixel of a colour image, the empty pixel outside bounds. -/
def pixAt (img : Image) (i j : ℕ) : Pix := (img.getD i []).getD j []

/-- Channel value of a colour image, 0 outside bounds. -/
def chAt (img : Image) (i j c : ℕ) : ℚ := (pixAt img i j).getD c 0

/-- Truncation of a rational toward zero (the C float-to-integer cast),
computed with unambiguous natural-number division. -/
def truncQ (q : ℚ) : ℤ :=
  if 0 ≤ q.num then ((q.num.toNat / q.den : ℕ) : ℤ)
  else -((q.num.natAbs / q.den : ℕ) : ℤ)

/-- The numpy unsafe store of a float into a uint8 array cell: truncate
toward zero, then wrap modulo 256. -/
def u8cast (q : ℚ) : ℕ := ((truncQ q) % 256).toNat

/-- Same as u8cast but returned as a rational, since our arrays hold ℚ. -/
def u8castQ (q : ℚ) : ℚ := (u8cast q : ℕ)

/-- OpenCV saturate_cast of a float to uint8: round to the nearest integer,
then clamp into [0, 255]. -/
def u8satQ (q : ℚ) : ℚ := ((min 255 (max 0 (round q)) : ℤ) : ℚ)

/-- Bool test that a rational is an integral byte value (0 ≤ v ≤ 255 with
denominator 1), i.e. a value a uint8 array cell can hold. -/
def isByteQ (v : ℚ) : Bool := (v.den == 1) && decide (0 ≤ v.num) && decide (v.num < 256)

/-- Bool test that every channel of every pixel of a colour image is a byte
value (the contents of a uint8 numpy array). -/
def isU8Image (img : Image) : Bool := img.all (fun r => r.all (fun p => p.all isByteQ))

/-- Bool test that every entry of a mask equals a given constant. -/
def allValQ (m : Mat) (c : ℚ) : Bool := m.all (fun r => r.all (fun v => v == c))

/-- Bool test that every entry of a mask lies in [0, 1]. -/
def maskIn01 (m : Mat) : Bool :=
  m.all (fun r => r.all (fun v => decide (0 ≤ v) && decide (v ≤ 1)))

/-- Bool test that a mask is an h-by-w rectangle. -/
def rectMat (m : Mat) (h w : ℕ) : Bool :=
  (m.length == h) && m.all (fun r => r.length == w)

/-- Bool test that a colour image has h rows of w pixels each. -/
def rectImg (img : Image) (h w : ℕ) : Bool :=
  (img.length == h) && img.all (fun r => r.length == w)

/-- Index map of the OpenCV BORDER_REFLECT_101 border mode used by cv2.blur:
indices reflect about the edge pixels without repeating them (period
2*(n-1)); degenerate extents map everything to 0. -/
def reflect101 (n : ℕ) (i : ℤ) : ℕ :=
  if n ≤ 1 then 0
  else if i % (2 * ((n : ℤ) - 1)) < (n : ℤ) then (i % (2 * ((n : ℤ) - 1))).toNat
  else (2 * ((n : ℤ) - 1) - i % (2 * ((n : ℤ) - 1))).toNat

/-- One output value of cv2.dilate with an all-ones kh-by-kw kernel,
anchor at the kernel centre (kh/2, kw/2): the maximum of the matrix over
the in-bounds part of the kernel window (the constant border used by
OpenCV morphology acts as minus infinity, so out-of-bounds positions are
ignored; the window always contains the pixel itself). -/
def dilatePx (kh kw : ℕ) (m : Mat) (i j : ℕ) : ℚ :=
  ((List.range (kh * kw)).filterMap (fun t =>
      let r : ℤ := (i : ℤ) + ((t / kw : ℕ) : ℤ) - ((kh / 2 : ℕ) : ℤ)
      let c : ℤ := (j : ℤ) + ((t % kw : ℕ) : ℤ) - ((kw / 2 : ℕ) : ℤ)
      if 0 ≤ r ∧ r < (m.length : ℤ) ∧ 0 ≤ c ∧ c < (matW m : ℤ)
      then some (matAt m r.toNat c.toNat) else none)).foldl max (matAt m i j)

/-- cv2.dilate(m, np.ones((kh, kw)), iterations=1): the elementwise window
maximum, with the output the same shape as the input. -/
def dilate (kh kw : ℕ) (m : Mat) : Mat :=
  (List.range m.length).map (fun i =>
    (List.range (matW m)).map (fun j => dilatePx kh kw m i j))

/-- Iterated dilation, modelling the iterations argument of cv2.dilate. -/
def dilateIter (kh kw : ℕ) : ℕ → Mat → Mat
  | 0, m => m
  | n + 1, m => dilateIter kh kw n (dilate kh kw m)

/-- One output value of cv2.blur with a kh-by-kw kernel: the average of the
kh*kw window values, anchor at the kernel centre, out-of-bounds indices
mapped back by the default BORDER_REFLECT_101 border. -/
def blurPx (kh kw : ℕ) (m : Mat) (i j : ℕ) : ℚ :=
  (((List.range (kh * kw)).map (fun t =>
      matAt m (reflect101 m.length ((i : ℤ) + ((t / kw : ℕ) : ℤ) - ((kh / 2 : ℕ) : ℤ)))
              (reflect101 (matW m) ((j : ℤ) + ((t % kw : ℕ) : ℤ) - ((kw / 2 : ℕ) : ℤ))))).sum)
    / ((kh * kw : ℕ) : ℚ)

/-- cv2.blur(m, (kw, kh)): the normalized box filter, output the same shape
as the input. -/
def blur (kh kw : ℕ) (m : Mat) : Mat :=
  (List.range m.length).map (fun i =>
    (List.range (matW m)).map (fun j => blurPx kh kw m i j))

/-- post_process_mask from capture.py: one iteration of dilation with a
10-by-10 all-ones kernel, then a 30-by-30 box blur (the astype(float32)
step is the identity in our exact-rational model). -/
def post_process_mask (m : Mat) : Mat := blur 30 30 (dilateIter 10 10 1 m)

/-- np.roll along one axis: entry r of the result is entry (r - k) mod n of
the input (k may be negative; the empty list stays empty). -/
def roll {α : Type} (k : ℤ) (l : List α) (dflt : α) : List α :=
  (List.range l.length).map (fun r : ℕ =>
    l.getD ((((r : ℤ) - k) % (l.length : ℤ)).toNat) dflt)

/-- The python slice assignments of shift_image: for d > 0 the entries with
index < d are zeroed (slice l[:d] = 0), for d < 0 the entries with index
≥ len + d are zeroed (slice l[d:] = 0, python clamping included), and for
d = 0 nothing changes.  z is the zeroing function for one entry. -/
def shiftZero {α : Type} (z : α → α) (d : ℤ) (l : List α) (dflt : α) : List α :=
  (List.range l.length).map (fun i =>
    let a := l.getD i dflt
    if (0 < d ∧ (i : ℤ) < d) ∨ (d < 0 ∧ (l.length : ℤ) + d ≤ (i : ℤ)) then z a else a)

/-- A pixel with every channel set to 0 (an assignment of the scalar 0 into
a pixel slice of a numpy array). -/
def zeroPix (p : Pix) : Pix := p.map (fun _ => (0 : ℚ))

/-- shift_image from capture.py: np.roll by dy on axis 0 and dx on axis 1,
then zero the vacated rows (per dy) and the vacated columns (per dx). -/
def shift_image (img : Image) (dx dy : ℤ) : Image :=
  let r1 := roll dy img ([] : List Pix)
  let r2 := r1.map (fun row => roll dx row ([] : Pix))
  let z1 := shiftZero (fun row => row.map zeroPix) dy r2 ([] : List Pix)
  z1.map (fun row => shiftZero zeroPix dx row ([] : Pix))

/-- Grayscale value of a BGR pixel, OpenCV COLOR_BGR2GRAY fixed-point
coefficients (1868*B + 9617*G + 4899*R + 8192) >> 14 on uint8 data. -/
def grayOf (p : Pix) : ℕ :=
  (1868 * u8cast (p.getD 0 0) + 9617 * u8cast (p.getD 1 0)
     + 4899 * u8cast (p.getD 2 0) + 8192) / 16384

/-- One pixel of cv2.applyColorMap(-, COLORMAP_WINTER): the BGR image is
first converted to its grayscale value v, then looked up in the WINTER
table r = 0, g = v, b spanning 255 down to 128 (b = 255 - v/2, byte
quantized). -/
def winterPix (p : Pix) : Pix :=
  let v := grayOf p
  [((255 - v / 2 : ℕ) : ℚ), (v : ℚ), 0]

/-- cv2.applyColorMap(img, cv2.COLORMAP_WINTER) on a BGR uint8 image. -/
def applyColorMapWinter (img : Image) : Image :=
  img.map (fun row => row.map winterPix)

/-- Length in rows of one darkened halftone band of the hologram effect. -/
def band_length : ℕ := 2

/-- Gap in rows between consecutive darkened bands. -/
def band_gap : ℕ := 3

/-- The numpy row assignment holo[y] = holo[y] * a on a uint8 array:
every channel of every pixel of the row is scaled and stored back with the
unsafe float-to-uint8 cast. -/
def scaleRow (a : ℚ) (row : List Pix) : List Pix :=
  row.map (fun p => p.map (fun v => u8castQ (a * v)))

/-- The halftone loop of hologram_effect: walking the rows from the top,
each row y with y % (band_length + band_gap) < band_length is darkened by
the next value of the random stream rand (np.random.uniform is called once
per darkened row, in row order; k counts the calls made so far). -/
def halftoneAux (rand : ℕ → ℚ) : ℕ → ℕ → Image → Image
  | _, _, [] => []
  | y, k, row :: rows =>
    if y % (band_length + band_gap) < band_length then
      scaleRow (rand k) row :: halftoneAux rand (y + 1) (k + 1) rows
    else
      row :: halftoneAux rand (y + 1) k rows

/-- The whole halftone stage, starting at row 0 with no draws consumed. -/
def halftone (rand : ℕ → ℚ) (img : Image) : Image := halftoneAux rand 0 0 img

/-- Number of np.random.uniform draws the halftone loop has consumed
before reaching row y (closed form: two draws per full 5-row period plus
one per darkened row inside the current period). -/
def drawIdx (y : ℕ) : ℕ := 2 * (y / 5) + min (y % 5) 2

/-- cv2.addWeighted(i1, a, i2, b, g) on uint8 images: per channel
saturate_cast(a*x + b*y + g). -/
def addWeighted (a : ℚ) (img1 : Image) (b : ℚ) (img2 : Image) (g : ℚ) : Image :=
  List.zipWith (fun r1 r2 =>
    List.zipWith (fun p1 p2 =>
      List.zipWith (fun x y => u8satQ (a * x + b * y + g)) p1 p2) r1 r2) img1 img2

/-- hologram_effect from capture.py: WINTER colour map, the halftone band
loop, two blends with diagonally shifted copies of the halftoned image
(weights 0.2/0.8 then 0.4/0.6), and a final blend with the original frame
(weights 0.5/0.6).  rand is the stream of np.random.uniform(0.1, 0.3)
draws. -/
def hologram_effect (rand : ℕ → ℚ) (img : Image) : Image :=
  let holo := halftone rand (applyColorMapWinter img)
  let holo_blur1 := addWeighted (2/10) holo (8/10) (shift_image holo 5 5) 0
  let holo_blur2 := addWeighted (4/10) holo_blur1 (6/10) (shift_image holo (-5) (-5)) 0
  addWeighted (5/10) img (6/10) holo_blur2 0

/-- One channel of the compositing assignment
frame[:, :, c] = frame[:, :, c] * mask + background[:, :, c] * inv_mask:
the operands are first uint8 array cells (astype(np.uint8)) and the result
is stored back into a uint8 array. -/
def compositeCh (m fc bc : ℚ) : ℚ :=
  u8castQ (u8castQ fc * m + u8castQ bc * (1 - m))

/-- One pixel of the composite: every channel blended with the same mask
weight. -/
def compositePixel (m : ℚ) (fp bp : Pix) : Pix :=
  List.zipWith (fun fc bc => compositeCh m fc bc) fp bp

/-- One row of the composite. -/
def compositeRow : List Pix → List ℚ → List Pix → List Pix
  | fp :: fs, m :: ms, bp :: bs => compositePixel m fp bp :: compositeRow fs ms bs
  | _, _, _ => []

/-- The compositing loop of get_frame: each colour channel blended
independently as frame * mask + background * (1 - mask), stored into the
uint8 frame array. -/
def composite : Image → Mat → Image → Image
  | fr :: fs, mr :: ms, br :: bs => compositeRow fr mr br :: composite fs ms bs
  | _, _, _ => []

/-- The mask retry loop of get_frame (while mask is None: try get_mask
except pass).  The network is modelled by the attempt oracle: attempts k
is the outcome of the k-th get_mask call (none = any exception).  fuel
bounds how many attempts we unroll; the real loop corresponds to arbitrary
fuel, and a run that exhausts every fuel without a success models the loop
blocking forever. -/
def retryMask (attempts : ℕ → Option Mat) : ℕ → ℕ → Option Mat
  | 0, _ => none
  | fuel + 1, k =>
    match attempts k with
    | some m => some m
    | none => retryMask attempts fuel (k + 1)

/-- get_frame from capture.py: block on the mask retry loop, post-process
the mask, default the background to a Gaussian blur of the current frame
(gauss models cv2.GaussianBlur with the fixed 221-by-221 kernel and
sigma 20), optionally apply the hologram effect, and composite.  Returns
none when the retry loop never obtains a mask within the given fuel. -/
def get_frame (gauss : Image → Image) (rand : ℕ → ℚ) (attempts : ℕ → Option Mat)
    (camFrame : Image) (background : Option Image) (use_hologram : Bool)
    (fuel : ℕ) : Option Image :=
  match retryMask attempts fuel 0 with
  | none => none
  | some mk =>
    let mask := post_process_mask mk
    let bg := background.getD (gauss camFrame)
    let fr := if use_hologram then hologram_effect rand camFrame else camFrame
    some (composite fr mask bg)

/-- cv2.flip(frame, 1): horizontal mirror, reversing each row of pixels. -/
def hflip (img : Image) : Image := img.map List.reverse

/-- cv2.cvtColor(frame, cv2.COLOR_BGR2RGB): reverse the channel order of
every pixel. -/
def bgr2rgb (img : Image) : Image := img.map (fun row => row.map List.reverse)

/-- Index clamping into [0, n) used by cv2.resize at the image border. -/
def clampIdx (n : ℕ) (x : ℤ) : ℕ :=
  if x < 0 then 0 else if x < (n : ℕ) then x.toNat else n - 1

/-- Multiply every channel of a pixel by a scalar. -/
def scalePix (a : ℚ) (p : Pix) : Pix := p.map (fun v => a * v)

/-- Add two pixels channelwise. -/
def addPix (p q : Pix) : Pix := List.zipWith (fun x y => x + y) p q

/-- One destination pixel of cv2.resize(src, (w, h)) with the default
INTER_LINEAR interpolation: sample the source at the centre-aligned
coordinate and blend the four surrounding source pixels bilinearly, with
border clamping, then store as uint8. -/
def resizePix (src : Image) (w h i j : ℕ) : Pix :=
  let sh := src.length
  let sw := matW src
  let fy : ℚ := ((i : ℚ) + 1/2) * sh / h - 1/2
  let fx : ℚ := ((j : ℚ) + 1/2) * sw / w - 1/2
  let y0 : ℤ := ⌊fy⌋
  let x0 : ℤ := ⌊fx⌋
  let ty : ℚ := fy - y0
  let tx : ℚ := fx - x0
  let p00 := pixAt src (clampIdx sh y0) (clampIdx sw x0)
  let p01 := pixAt src (clampIdx sh y0) (clampIdx sw (x0 + 1))
  let p10 := pixAt src (clampIdx sh (y0 + 1)) (clampIdx sw x0)
  let p11 := pixAt src (clampIdx sh (y0 + 1)) (clampIdx sw (x0 + 1))
  (addPix (addPix (scalePix ((1 - ty) * (1 - tx)) p00) (scalePix ((1 - ty) * tx) p01))
          (addPix (scalePix (ty * (1 - tx)) p10) (scalePix (ty * tx) p11))).map u8satQ

/-- cv2.resize(src, (w, h)): a w-by-h destination grid of interpolated
source samples. -/
def resize (src : Image) (w h : ℕ) : Image :=
  (List.range h).map (fun i => (List.range w).map (fun j => resizePix src w h i j))

/-- A message of the live-config channel: { background: path-or-absent,
hologram: bool, mirror: bool }.  The image file the path points to is
carried directly (reading the file is modelled as part of the message). -/
structure QueueDict where
  background : Option Image
  hologram : Bool
  mirror : Bool
  deriving Repr, DecidableEq

/-- The mutable per-iteration configuration of the capture loop. -/
structure LoopState where
  background_scaled : Option Image
  use_hologram : Bool
  use_mirror : Bool
  deriving Repr, DecidableEq

/-- Applying one consumed queue message inside the capture loop: an absent
background clears background_scaled, a present one is loaded and resized to
the output resolution; the hologram and mirror flags are overwritten. -/
def applyConfig (w h : ℕ) (d : QueueDict) : LoopState :=
  { background_scaled := d.background.map (fun img => resize img w h),
    use_hologram := d.hologram,
    use_mirror := d.mirror }

/-- The initialization of start: an optional starting background image is
loaded and resized once to the output resolution. -/
def initState (background : Option Image) (use_hologram use_mirror : Bool)
    (w h : ℕ) : LoopState :=
  { background_scaled := background.map (fun img => resize img w h),
    use_hologram := use_hologram, use_mirror := use_mirror }

/-- One iteration of the streaming loop of start: produce a frame through
get_frame, mirror it if configured, convert BGR to RGB and publish it,
then poll the queue non-blocking and apply at most the one message at its
head.  When the mask retry loop blocks forever (get_frame = none) the
iteration never completes: nothing is published and the queue is not
polled. -/
def loopStep (gauss : Image → Image) (rand : ℕ → ℚ) (attempts : ℕ → Option Mat)
    (w h : ℕ) (camFrame : Image) (st : LoopState) (queue : List QueueDict)
    (fuel : ℕ) : Option Image × LoopState × List QueueDict :=
  match get_frame gauss rand attempts camFrame st.background_scaled st.use_hologram fuel with
  | none => (none, st, queue)
  | some fr =>
    let fr2 := if st.use_mirror then hflip fr else fr
    let published := bgr2rgb fr2
    match queue with
    | [] => (some published, st, [])
    | d :: rest => (some published, applyConfig w h d, rest)

/-- Bool test that two rows of pixels match in length pixel by pixel
(every pixel has the same channel count as its counterpart). -/
def rowDims : List Pix → List Pix → Bool
  | [], [] => true
  | fp :: fs, bp :: bs => (fp.length == bp.length) && rowDims fs bs
  | _, _ => false

/-- Bool test that a frame, a mask and a background have identical
height and width (and the frame and background pixelwise equal channel
counts), the well-formedness the compositor relies on. -/
def dims3 : Image → Mat → Image → Bool
  | [], [], [] => true
  | fr :: fs, mr :: ms, br :: bs =>
      (fr.length == mr.length) && (mr.length == br.length) && rowDims fr br
        && dims3 fs ms bs
  | _, _, _ => false

/-- Bool invariant of the capture loop: the stored scaled background is
either absent or exactly h rows of w pixels (the output resolution). -/
def bgInv (w h : ℕ) (st : LoopState) : Bool :=
  match st.background_scaled with
  | none => true
  | some b => (b.length == h) && b.all (fun row => row.length == w)

/-! Basic access lemmas for the list-based image representation. -/

theorem getD_range_map {α : Type} (f : ℕ → α) (n i : ℕ) (d : α) :
    ((List.range n).map f).getD i d = if i < n then f i else d := by
  by_cases h : i < n
  · simp [List.getD_eq_getElem?_getD, List.getElem?_map, List.getElem?_range h, h]
  · simp only [List.getD_eq_getElem?_getD, if_neg h]
    rw [List.getElem?_eq_none (by simpa using Nat.le_of_not_lt h)]
    rfl

theorem getD_map_of_lt {α β : Type} (f : α → β) (l : List α) (i : ℕ) (d : β) (d' : α)
    (h : i < l.length) : (l.map f).getD i d = f (l.getD i d') := by
  simp [List.getD_eq_getElem?_getD, List.getElem?_map, List.getElem?_eq_getElem h]

theorem zipWith_getD {α β γ : Type} (f : α → β → γ) (xs : List α) (ys : List β)
    (i : ℕ) (d : γ) (da : α) (db : β) (hx : i < xs.length) (hy : i < ys.length) :
    (List.zipWith f xs ys).getD i d = f (xs.getD i da) (ys.getD i db) := by
  induction xs generalizing ys i with
  | nil => simp at hx
  | cons x xs ih =>
    cases ys with
    | nil => simp at hy
    | cons y ys =>
      cases i with
      | zero => simp
      | succ i =>
        simp only [List.zipWith_cons_cons, List.getD_cons_succ]
        exact ih ys i (by simpa using hx) (by simpa using hy)

theorem getD_of_lt_mem {α : Type} (l : List α) (i : ℕ) (d : α) (h : i < l.length) :
    l.getD i d ∈ l := by
  simp only [List.getD_eq_getElem?_getD, List.getElem?_eq_getElem h]
  exact List.getElem_mem h

theorem foldl_max_const {α : Type} [LinearOrder α] (c : α) (l : List α)
    (h : ∀ x ∈ l, x = c) : l.foldl max c = c := by
  induction l with
  | nil => rfl
  | cons x xs ih =>
    have hx : x = c := h x (by simp)
    simp only [List.foldl_cons, hx, max_self]
    exact ih (fun y hy => h y (by simp [hy]))

theorem sum_const_of_mem (c : ℚ) (l : List ℚ) (h : ∀ x ∈ l, x = c) :
    l.sum = (l.length : ℚ) * c := by
  induction l with
  | nil => simp
  | cons x xs ih =>
    have hx : x = c := h x (by simp)
    have := ih (fun y hy => h y (by simp [hy]))
    simp only [List.sum_cons, this, hx, List.length_cons]
    push_cast
    ring

theorem reflect101_lt (n : ℕ) (hn : 1 ≤ n) (i : ℤ) : reflect101 n i < n := by
  unfold reflect101
  by_cases h1 : n ≤ 1
  · simp [h1]; omega
  · have hn2 : (2 : ℤ) ≤ (n : ℤ) := by exact_mod_cast (by omega : 2 ≤ n)
    have hp : (0 : ℤ) < 2 * ((n : ℤ) - 1) := by omega
    have hge : 0 ≤ i % (2 * ((n : ℤ) - 1)) := Int.emod_nonneg i (by omega)
    have hlt : i % (2 * ((n : ℤ) - 1)) < 2 * ((n : ℤ) - 1) := Int.emod_lt_of_pos i hp
    simp only [if_neg h1]
    by_cases h2 : i % (2 * ((n : ℤ) - 1)) < (n : ℤ)
    · simp only [if_pos h2]
      omega
    · simp only [if_neg h2]
      omega

/-! Rational byte-value lemmas: evaluating the modelled uint8 casts. -/

theorem truncQ_of_nonneg (q : ℚ) (h : 0 ≤ q) : truncQ q = ⌊q⌋ := by
  have hnum : 0 ≤ q.num := Rat.num_nonneg.mpr h
  unfold truncQ
  rw [if_pos hnum]
  have hq : ((q.num : ℚ) / (q.den : ℚ)) = q := Rat.num_div_den q
  have hfl : ⌊q⌋ = q.num / (q.den : ℤ) := by
    conv_lhs => rw [← hq]
    have : (q.num : ℚ) = ((q.num.toNat : ℤ) : ℚ) := by
      rw [Int.toNat_of_nonneg hnum]
    rw [this, Rat.floor_intCast_div_natCast, Int.toNat_of_nonneg hnum]
  rw [hfl, Int.ofNat_ediv, Int.toNat_of_nonneg hnum]

theorem u8castQ_of_bounds (q : ℚ) (n : ℕ) (h1 : (n : ℚ) ≤ q) (h2 : q < (n : ℚ) + 1)
    (h3 : n < 256) : u8castQ q = (n : ℚ) := by
  have h0 : (0 : ℚ) ≤ q := le_trans (by positivity) h1
  have hfl : ⌊q⌋ = (n : ℤ) := by
    rw [Int.floor_eq_iff]
    constructor
    · exact_mod_cast h1
    · exact_mod_cast h2
  unfold u8castQ u8cast
  rw [truncQ_of_nonneg q h0, hfl]
  rw [Int.emod_eq_of_lt (by positivity) (by exact_mod_cast h3)]
  simp

theorem u8castQ_natCast (n : ℕ) (h : n < 256) : u8castQ (n : ℚ) = (n : ℚ) :=
  u8castQ_of_bounds _ n le_rfl (by norm_num) h

theorem isByteQ_iff (v : ℚ) : isByteQ v = true ↔ ∃ n : ℕ, n < 256 ∧ v = (n : ℚ) := by
  unfold isByteQ
  simp only [Bool.and_eq_true, beq_iff_eq, decide_eq_true_eq]
  constructor
  · rintro ⟨⟨hden, hpos⟩, hlt⟩
    refine ⟨v.num.toNat, ?_, ?_⟩
    · omega
    · have hv : (v.num : ℚ) = v := (Rat.den_eq_one_iff v).mp hden
      have h2 : ((v.num.toNat : ℕ) : ℚ) = v := by
        rw [← hv]
        exact_mod_cast Int.toNat_of_nonneg hpos
      exact h2.symm
  · rintro ⟨n, hn, rfl⟩
    refine ⟨⟨Rat.den_natCast n, ?_⟩, ?_⟩ <;> simp only [Rat.num_natCast] <;> omega

theorem u8castQ_byte (v : ℚ) (h : isByteQ v = true) : u8castQ v = v := by
  obtain ⟨n, hn, rfl⟩ := (isByteQ_iff v).mp h
  exact u8castQ_natCast n hn

/-! Shape and constant-field lemmas for the mask post-processing stages. -/

theorem rectMat_iff (m : Mat) (h w : ℕ) :
    rectMat m h w = true ↔ m.length = h ∧ ∀ r ∈ m, r.length = w := by
  simp [rectMat, List.all_eq_true]

theorem allValQ_iff (m : Mat) (c : ℚ) :
    allValQ m c = true ↔ ∀ r ∈ m, ∀ v ∈ r, v = c := by
  simp [allValQ, List.all_eq_true]

theorem rowLen_of_rect (m : Mat) (h w : ℕ) (hr : rectMat m h w = true)
    (i : ℕ) (hi : i < m.length) : (m.getD i []).length = w := by
  obtain ⟨-, hrow⟩ := (rectMat_iff m h w).mp hr
  exact hrow _ (getD_of_lt_mem m i [] hi)

theorem matW_of_rect (m : Mat) (h w : ℕ) (h1 : 1 ≤ h) (hr : rectMat m h w = true) :
    matW m = w := by
  obtain ⟨hlen, hrow⟩ := (rectMat_iff m h w).mp hr
  cases m with
  | nil => simp at hlen; omega
  | cons r rs => exact hrow r (by simp)

theorem matAt_of_const (m : Mat) (c : ℚ) (hc : allValQ m c = true)
    (i j : ℕ) (hi : i < m.length) (hj : j < (m.getD i []).length) :
    matAt m i j = c := by
  have hrow := getD_of_lt_mem m i [] hi
  have hval := getD_of_lt_mem (m.getD i []) j 0 hj
  exact (allValQ_iff m c).mp hc _ hrow _ hval

theorem dilatePx_const (kh kw : ℕ) (m : Mat) (c : ℚ) (h w : ℕ)
    (hr : rectMat m h w = true) (hc : allValQ m c = true)
    (i j : ℕ) (hi : i < h) (hj : j < w) : dilatePx kh kw m i j = c := by
  obtain ⟨hlen, -⟩ := (rectMat_iff m h w).mp hr
  have hinit : matAt m i j = c := by
    apply matAt_of_const m c hc i j (by omega)
    rw [rowLen_of_rect m h w hr i (by omega)]; exact hj
  unfold dilatePx
  rw [hinit]
  apply foldl_max_const
  intro x hx
  rw [List.mem_filterMap] at hx
  obtain ⟨t, -, ht⟩ := hx
  dsimp only at ht
  split at ht
  case isTrue hb =>
    obtain ⟨hr0, hr1, hc0, hc1⟩ := hb
    have hx2 := Option.some.inj ht
    subst hx2
    apply matAt_of_const m c hc _ _ (by omega)
    rw [rowLen_of_rect m h w hr _ (by omega)]
    have hw : matW m = w := matW_of_rect m h w (by omega) hr
    omega
  case isFalse => exact absurd ht (by simp)

theorem blurPx_const (kh kw : ℕ) (hkh : 1 ≤ kh) (hkw : 1 ≤ kw)
    (m : Mat) (c : ℚ) (h w : ℕ) (h1 : 1 ≤ h) (h2 : 1 ≤ w)
    (hr : rectMat m h w = true) (hc : allValQ m c = true)
    (i j : ℕ) : blurPx kh kw m i j = c := by
  obtain ⟨hlen, -⟩ := (rectMat_iff m h w).mp hr
  have hw : matW m = w := matW_of_rect m h w h1 hr
  unfold blurPx
  have hsum : (List.map (fun t =>
      matAt m (reflect101 m.length ((i : ℤ) + ((t / kw : ℕ) : ℤ) - ((kh / 2 : ℕ) : ℤ)))
              (reflect101 (matW m) ((j : ℤ) + ((t % kw : ℕ) : ℤ) - ((kw / 2 : ℕ) : ℤ))))
      (List.range (kh * kw))).sum = ((kh * kw : ℕ) : ℚ) * c := by
    rw [sum_const_of_mem c]
    · simp
    · intro x hx
      rw [List.mem_map] at hx
      obtain ⟨t, -, rfl⟩ := hx
      have hb1 : reflect101 m.length ((i : ℤ) + ((t / kw : ℕ) : ℤ) - ((kh / 2 : ℕ) : ℤ))
          < m.length :=
        reflect101_lt m.length (by omega) ((i : ℤ) + ((t / kw : ℕ) : ℤ) - ((kh / 2 : ℕ) : ℤ))
      apply matAt_of_const m c hc _ _ hb1
      rw [rowLen_of_rect m h w hr _ (by omega)]
      have := reflect101_lt (matW m) (by omega) ((j : ℤ) + ((t % kw : ℕ) : ℤ) - ((kw / 2 : ℕ) : ℤ))
      omega
  rw [hsum]
  exact mul_div_cancel_left₀ c (by positivity)

theorem dilate_const (kh kw : ℕ) (m : Mat) (c : ℚ) (h w : ℕ)
    (h1 : 1 ≤ h) (h2 : 1 ≤ w) (hr : rectMat m h w = true) (hc : allValQ m c = true) :
    dilate kh kw m = List.replicate h (List.replicate w c) := by
  obtain ⟨hlen, -⟩ := (rectMat_iff m h w).mp hr
  have hw : matW m = w := matW_of_rect m h w h1 hr
  unfold dilate
  rw [List.eq_replicate_iff]
  refine ⟨by simp [hlen], ?_⟩
  intro row hrow
  rw [List.mem_map] at hrow
  obtain ⟨i, hi, rfl⟩ := hrow
  rw [List.mem_range] at hi
  rw [List.eq_replicate_iff]
  refine ⟨by simp [hw], ?_⟩
  intro v hv
  rw [List.mem_map] at hv
  obtain ⟨j, hj, rfl⟩ := hv
  rw [List.mem_range] at hj
  exact dilatePx_const kh kw m c h w hr hc i j (by omega) (by omega)

theorem blur_const (kh kw : ℕ) (hkh : 1 ≤ kh) (hkw : 1 ≤ kw)
    (m : Mat) (c : ℚ) (h w : ℕ) (h1 : 1 ≤ h) (h2 : 1 ≤ w)
    (hr : rectMat m h w = true) (hc : allValQ m c = true) :
    blur kh kw m = List.replicate h (List.replicate w c) := by
  obtain ⟨hlen, -⟩ := (rectMat_iff m h w).mp hr
  have hw : matW m = w := matW_of_rect m h w h1 hr
  unfold blur
  rw [List.eq_replicate_iff]
  refine ⟨by simp [hlen], ?_⟩
  intro row hrow
  rw [List.mem_map] at hrow
  obtain ⟨i, hi, rfl⟩ := hrow
  rw [List.eq_replicate_iff]
  refine ⟨by simp [hw], ?_⟩
  intro v hv
  rw [List.mem_map] at hv
  obtain ⟨j, hj, rfl⟩ := hv
  exact blurPx_const kh kw hkh hkw m c h w h1 h2 hr hc i j

theorem rectMat_replicate (h w : ℕ) (c : ℚ) :
    rectMat (List.replicate h (List.replicate w c)) h w = true := by
  rw [rectMat_iff]
  refine ⟨by simp, ?_⟩
  intro r hr
  rw [List.mem_replicate] at hr
  simp [hr.2]

theorem allValQ_replicate (h w : ℕ) (c : ℚ) :
    allValQ (List.replicate h (List.replicate w c)) c = true := by
  rw [allValQ_iff]
  intro r hr v hv
  rw [List.mem_replicate] at hr
  rw [hr.2, List.mem_replicate] at hv
  exact hv.2

theorem post_const (m : Mat) (c : ℚ) (h w : ℕ) (h1 : 1 ≤ h) (h2 : 1 ≤ w)
    (hr : rectMat m h w = true) (hc : allValQ m c = true) :
    post_process_mask m = List.replicate h (List.replicate w c) := by
  unfold post_process_mask
  rw [show dilateIter 10 10 1 m = dilate 10 10 m from rfl]
  rw [dilate_const 10 10 m c h w h1 h2 hr hc]
  exact blur_const 30 30 (by norm_num) (by norm_num) _ c h w h1 h2
    (rectMat_replicate h w c) (allValQ_replicate h w c)

/-! Compositor lemmas. -/

theorem compositeCh_one (fc bc : ℚ) (h : isByteQ fc = true) : compositeCh 1 fc bc = fc := by
  unfold compositeCh
  rw [u8castQ_byte fc h]
  have heq : fc * 1 + u8castQ bc * (1 - 1) = fc := by ring
  rw [heq, u8castQ_byte fc h]

theorem compositeCh_zero (fc bc : ℚ) (h : isByteQ bc = true) : compositeCh 0 fc bc = bc := by
  unfold compositeCh
  rw [u8castQ_byte bc h]
  have heq : u8castQ fc * 0 + bc * (1 - 0) = bc := by ring
  rw [heq, u8castQ_byte bc h]

theorem rowDims_len (fr br : List Pix) (h : rowDims fr br = true) :
    fr.length = br.length := by
  induction fr generalizing br with
  | nil => cases br with
    | nil => rfl
    | cons b bs => simp [rowDims] at h
  | cons f fs ih =>
    cases br with
    | nil => simp [rowDims] at h
    | cons b bs =>
      simp only [rowDims, Bool.and_eq_true] at h
      simp [ih bs h.2]

theorem rowDims_getD (fr br : List Pix) (h : rowDims fr br = true) (j : ℕ)
    (hj : j < fr.length) : (fr.getD j []).length = (br.getD j []).length := by
  induction fr generalizing br j with
  | nil => simp at hj
  | cons f fs ih =>
    cases br with
    | nil => simp [rowDims] at h
    | cons b bs =>
      simp only [rowDims, Bool.and_eq_true, beq_iff_eq] at h
      cases j with
      | zero => simpa using h.1
      | succ j =>
        simp only [List.getD_cons_succ]
        exact ih bs (by simp [rowDims, h.2]) j (by simpa using hj)

theorem dims3_len (f : Image) (m : Mat) (b : Image) (hd : dims3 f m b = true) :
    f.length = m.length ∧ m.length = b.length := by
  induction f generalizing m b with
  | nil => cases m with
    | nil => cases b with
      | nil => simp
      | cons _ _ => simp [dims3] at hd
    | cons _ _ => simp [dims3] at hd
  | cons fr fs ih =>
    cases m with
    | nil => simp [dims3] at hd
    | cons mr ms =>
      cases b with
      | nil => simp [dims3] at hd
      | cons br bs =>
        simp only [dims3, Bool.and_eq_true] at hd
        have := ih ms bs hd.2
        simp [this.1, this.2]

theorem dims3_getD (f : Image) (m : Mat) (b : Image) (hd : dims3 f m b = true)
    (i : ℕ) (hi : i < f.length) :
    (f.getD i []).length = (m.getD i []).length ∧
      rowDims (f.getD i []) (b.getD i []) = true := by
  induction f generalizing m b i with
  | nil => simp at hi
  | cons fr fs ih =>
    cases m with
    | nil => simp [dims3] at hd
    | cons mr ms =>
      cases b with
      | nil => simp [dims3] at hd
      | cons br bs =>
        simp only [dims3, Bool.and_eq_true, beq_iff_eq] at hd
        obtain ⟨⟨⟨hfm, hmb⟩, hrow⟩, hrest⟩ := hd
        cases i with
        | zero => exact ⟨hfm, hrow⟩
        | succ i =>
          simp only [List.getD_cons_succ]
          exact ih ms bs hrest i (by simpa using hi)

theorem byte_chAt (f : Image) (hf : isU8Image f = true) (i j c : ℕ)
    (hi : i < f.length) (hj : j < (f.getD i []).length) (hc : c < (pixAt f i j).length) :
    isByteQ (chAt f i j c) = true := by
  rw [isU8Image, List.all_eq_true] at hf
  have hrow := hf _ (getD_of_lt_mem f i [] hi)
  rw [List.all_eq_true] at hrow
  have hpix := hrow _ (getD_of_lt_mem (f.getD i []) j [] hj)
  rw [List.all_eq_true] at hpix
  exact hpix _ (getD_of_lt_mem (pixAt f i j) c 0 hc)

theorem compositePixel_getD (mv : ℚ) (fp bp : Pix) (h : fp.length = bp.length)
    (c : ℕ) (hc : c < fp.length) :
    (compositePixel mv fp bp).getD c 0 = compositeCh mv (fp.getD c 0) (bp.getD c 0) := by
  unfold compositePixel
  exact zipWith_getD _ fp bp c 0 0 0 hc (by omega)

theorem compositeRow_getD (fr : List Pix) (mr : List ℚ) (br : List Pix)
    (h1 : fr.length = mr.length) (h2 : rowDims fr br = true) (j : ℕ)
    (hj : j < fr.length) :
    (compositeRow fr mr br).getD j [] =
      compositePixel (mr.getD j 0) (fr.getD j []) (br.getD j []) := by
  induction fr generalizing mr br j with
  | nil => simp at hj
  | cons fp fs ih =>
    cases mr with
    | nil => simp at h1
    | cons mv ms =>
      cases br with
      | nil => simp [rowDims] at h2
      | cons bp bs =>
        simp only [rowDims, Bool.and_eq_true] at h2
        cases j with
        | zero => rfl
        | succ j =>
          show (compositeRow fs ms bs).getD j [] = _
          exact ih ms bs (by simpa using h1) h2.2 j (by simpa using hj)

theorem composite_getD (f : Image) (m : Mat) (b : Image) (hd : dims3 f m b = true)
    (i : ℕ) (hi : i < f.length) :
    (composite f m b).getD i [] =
      compositeRow (f.getD i []) (m.getD i []) (b.getD i []) := by
  induction f generalizing m b i with
  | nil => simp at hi
  | cons fr fs ih =>
    cases m with
    | nil => simp [dims3] at hd
    | cons mr ms =>
      cases b with
      | nil => simp [dims3] at hd
      | cons br bs =>
        simp only [dims3, Bool.and_eq_true] at hd
        cases i with
        | zero => rfl
        | succ i =>
          show (composite fs ms bs).getD i [] = _
          exact ih ms bs hd.2 i (by simpa using hi)

theorem compositePixel_ones (fp bp : Pix) (h : fp.length = bp.length)
    (hb : fp.all isByteQ = true) : compositePixel 1 fp bp = fp := by
  induction fp generalizing bp with
  | nil => rfl
  | cons fc fs ih =>
    cases bp with
    | nil => simp at h
    | cons bc bs =>
      rw [List.all_cons, Bool.and_eq_true] at hb
      show compositeCh 1 fc bc :: compositePixel 1 fs bs = fc :: fs
      rw [compositeCh_one fc bc hb.1, ih bs (by simpa using h) hb.2]

theorem compositePixel_zeros (fp bp : Pix) (h : fp.length = bp.length)
    (hb : bp.all isByteQ = true) : compositePixel 0 fp bp = bp := by
  induction fp generalizing bp with
  | nil =>
    cases bp with
    | nil => rfl
    | cons _ _ => simp at h
  | cons fc fs ih =>
    cases bp with
    | nil => simp at h
    | cons bc bs =>
      rw [List.all_cons, Bool.and_eq_true] at hb
      show compositeCh 0 fc bc :: compositePixel 0 fs bs = bc :: bs
      rw [compositeCh_zero fc bc hb.1, ih bs (by simpa using h) hb.2]

theorem compositeRow_ones (fr : List Pix) (mr : List ℚ) (br : List Pix)
    (h1 : fr.length = mr.length) (h2 : rowDims fr br = true)
    (hm : ∀ v ∈ mr, v = 1) (hb : fr.all (fun p => p.all isByteQ) = true) :
    compositeRow fr mr br = fr := by
  induction fr generalizing mr br with
  | nil => cases mr <;> cases br <;> rfl
  | cons fp fs ih =>
    cases mr with
    | nil => simp at h1
    | cons mv ms =>
      cases br with
      | nil => simp [rowDims] at h2
      | cons bp bs =>
        simp only [rowDims, Bool.and_eq_true, beq_iff_eq] at h2
        rw [List.all_cons, Bool.and_eq_true] at hb
        show compositePixel mv fp bp :: compositeRow fs ms bs = fp :: fs
        have hmv : mv = 1 := hm mv (by simp)
        rw [hmv, compositePixel_ones fp bp h2.1 hb.1,
          ih ms bs (by simpa using h1) h2.2 (fun v hv => hm v (by simp [hv])) hb.2]

theorem compositeRow_zeros (fr : List Pix) (mr : List ℚ) (br : List Pix)
    (h1 : fr.length = mr.length) (h2 : rowDims fr br = true)
    (hm : ∀ v ∈ mr, v = 0) (hb : br.all (fun p => p.all isByteQ) = true) :
    compositeRow fr mr br = br := by
  induction fr generalizing mr br with
  | nil =>
    cases mr with
    | nil =>
      cases br with
      | nil => rfl
      | cons _ _ => simp [rowDims] at h2
    | cons _ _ => simp at h1
  | cons fp fs ih =>
    cases mr with
    | nil => simp at h1
    | cons mv ms =>
      cases br with
      | nil => simp [rowDims] at h2
      | cons bp bs =>
        simp only [rowDims, Bool.and_eq_true, beq_iff_eq] at h2
        rw [List.all_cons, Bool.and_eq_true] at hb
        show compositePixel mv fp bp :: compositeRow fs ms bs = bp :: bs
        have hmv : mv = 0 := hm mv (by simp)
        rw [hmv, compositePixel_zeros fp bp h2.1 hb.1,
          ih ms bs (by simpa using h1) h2.2 (fun v hv => hm v (by simp [hv])) hb.2]

theorem composite_ones (f : Image) (m : Mat) (b : Image) (hd : dims3 f m b = true)
    (hm : allValQ m 1 = true) (hf : isU8Image f = true) : composite f m b = f := by
  induction f generalizing m b with
  | nil => cases m <;> cases b <;> rfl
  | cons fr fs ih =>
    cases m with
    | nil => simp [dims3] at hd
    | cons mr ms =>
      cases b with
      | nil => simp [dims3] at hd
      | cons br bs =>
        simp only [dims3, Bool.and_eq_true, beq_iff_eq] at hd
        obtain ⟨⟨⟨hfm, hmb⟩, hrow⟩, hrest⟩ := hd
        rw [allValQ, List.all_cons, Bool.and_eq_true] at hm
        rw [isU8Image, List.all_cons, Bool.and_eq_true] at hf
        show compositeRow fr mr br :: composite fs ms bs = fr :: fs
        rw [compositeRow_ones fr mr br hfm hrow
          (by intro v hv; have := (List.all_eq_true).mp hm.1 v hv; simpa using this) hf.1]
        rw [ih ms bs hrest hm.2 hf.2]

theorem composite_zeros (f : Image) (m : Mat) (b : Image) (hd : dims3 f m b = true)
    (hm : allValQ m 0 = true) (hb : isU8Image b = true) : composite f m b = b := by
  induction f generalizing m b with
  | nil =>
    cases m with
    | nil =>
      cases b with
      | nil => rfl
      | cons _ _ => simp [dims3] at hd
    | cons _ _ => simp [dims3] at hd
  | cons fr fs ih =>
    cases m with
    | nil => simp [dims3] at hd
    | cons mr ms =>
      cases b with
      | nil => simp [dims3] at hd
      | cons br bs =>
        simp only [dims3, Bool.and_eq_true, beq_iff_eq] at hd
        obtain ⟨⟨⟨hfm, hmb⟩, hrow⟩, hrest⟩ := hd
        rw [allValQ, List.all_cons, Bool.and_eq_true] at hm
        rw [isU8Image, List.all_cons, Bool.and_eq_true] at hb
        show compositeRow fr mr br :: composite fs ms bs = br :: bs
        rw [compositeRow_zeros fr mr br hfm hrow
          (by intro v hv; have := (List.all_eq_true).mp hm.1 v hv; simpa using this) hb.1]
        rw [ih ms bs hrest hm.2 hb.2]

theorem headD_eq_getD_zero {α : Type} (l : List α) (d : α) : l.headD d = l.getD 0 d := by
  cases l <;> rfl

theorem matW_range_map (n w : ℕ) (hn : 1 ≤ n) (g : ℕ → ℕ → ℚ) :
    matW ((List.range n).map (fun i => (List.range w).map (g i))) = w := by
  unfold matW
  rw [headD_eq_getD_zero, getD_range_map, if_pos (by omega)]
  simp

/-- C1: for frames, masks and backgrounds of identical dimensions with mask
values in [0, 1], the compositor computes each colour channel independently
as frame * mask + background * (1 - mask) (stored through the uint8 cast),
and consequently the composite equals the frame exactly when the mask is 1
everywhere and equals the background exactly when the mask is 0
everywhere. -/
theorem c1_compositor (f : Image) (m : Mat) (b : Image)
    (hd : dims3 f m b = true) (hf : isU8Image f = true) (hb : isU8Image b = true)
    (h01 : maskIn01 m = true) :
    (∀ i j c, i < f.length → j < (f.getD i []).length → c < (pixAt f i j).length →
      chAt (composite f m b) i j c =
        u8castQ (chAt f i j c * matAt m i j + chAt b i j c * (1 - matAt m i j))) ∧
    (allValQ m 1 = true → composite f m b = f) ∧
    (allValQ m 0 = true → composite f m b = b) := by
  refine ⟨?_, fun hm => composite_ones f m b hd hm hf,
    fun hm => composite_zeros f m b hd hm hb⟩
  intro i j c hi hj hc
  obtain ⟨hfm, hmb⟩ := dims3_len f m b hd
  obtain ⟨hrowlen, hrowdims⟩ := dims3_getD f m b hd i hi
  have hpixlen : (pixAt f i j).length = (pixAt b i j).length :=
    rowDims_getD _ _ hrowdims j hj
  have hjb : j < (b.getD i []).length := by
    rw [← rowDims_len _ _ hrowdims]; exact hj
  have hstep : chAt (composite f m b) i j c =
      (compositePixel (matAt m i j) (pixAt f i j) (pixAt b i j)).getD c 0 := by
    unfold chAt pixAt matAt
    rw [composite_getD f m b hd i hi,
      compositeRow_getD _ _ _ hrowlen hrowdims j hj]
  rw [hstep, compositePixel_getD _ _ _ hpixlen c hc]
  show compositeCh (matAt m i j) (chAt f i j c) (chAt b i j c) = _
  unfold compositeCh
  rw [u8castQ_byte _ (byte_chAt f hf i j c hi hj hc),
    u8castQ_byte _ (byte_chAt b hb i j c (by omega) hjb (by rw [← hpixlen]; exact hc))]

theorem c1_compositor_witness :
    dims3 [[[10, 20, 30]]] [[1]] [[[5, 6, 7]]] = true ∧
    composite [[[10, 20, 30]]] [[1]] [[[5, 6, 7]]] = [[[10, 20, 30]]] ∧
    composite [[[10, 20, 30]]] [[0]] [[[5, 6, 7]]] = [[[5, 6, 7]]] :=
  ⟨by decide,
   (c1_compositor [[[10, 20, 30]]] [[1]] [[[5, 6, 7]]]
      (by decide) (by decide) (by decide) (by decide)).2.1 (by decide),
   (c1_compositor [[[10, 20, 30]]] [[0]] [[[5, 6, 7]]]
      (by decide) (by decide) (by decide) (by decide)).2.2 (by decide)⟩

/-- C6: the mask post-processor is exactly one iteration of dilation with a
10-by-10 kernel followed by a 30-by-30 box blur, preserves the mask shape,
computes each output entry as the box-blur average of the dilated mask, and
is deterministic. -/
theorem c6_post_process_structure (m : Mat) :
    post_process_mask m = blur 30 30 (dilate 10 10 m) ∧
    (post_process_mask m).length = m.length ∧
    (∀ row ∈ post_process_mask m, row.length = matW m) ∧
    (∀ i j, i < m.length → j < matW m →
      matAt (post_process_mask m) i j = blurPx 30 30 (dilate 10 10 m) i j) ∧
    (∀ m2, m = m2 → post_process_mask m = post_process_mask m2) := by
  have hdlen : (dilate 10 10 m).length = m.length := by
    unfold dilate; simp
  have hmw : m ≠ [] → matW (dilate 10 10 m) = matW m := by
    intro hne
    have hlen : 1 ≤ m.length := by
      cases m with
      | nil => exact absurd rfl hne
      | cons _ _ => simp
    unfold dilate
    rw [matW_range_map m.length (matW m) hlen]
  have hdef : post_process_mask m = blur 30 30 (dilate 10 10 m) := rfl
  refine ⟨hdef, ?_, ?_, ?_, ?_⟩
  · rw [hdef]
    unfold blur
    simp [hdlen]
  · intro row hrow
    rw [hdef] at hrow
    unfold blur at hrow
    rw [List.mem_map] at hrow
    obtain ⟨i, hi, rfl⟩ := hrow
    rw [List.mem_range] at hi
    have hne : m ≠ [] := by
      intro hmnil
      subst hmnil
      simp [dilate] at hi
    simp [hmw hne]
  · intro i j hi hj
    have hne : m ≠ [] := by
      intro hmnil; subst hmnil; simp at hi
    rw [hdef]
    unfold blur matAt
    rw [getD_range_map, if_pos (by omega : i < (dilate 10 10 m).length),
      getD_range_map, if_pos (by rw [hmw hne]; omega)]
  · intro m2 hm
    rw [hm]

theorem c6_witness :
    post_process_mask [[3]] = blur 30 30 (dilate 10 10 [[3]]) ∧
    matAt (post_process_mask [[3]]) 0 0 = blurPx 30 30 (dilate 10 10 [[3]]) 0 0 :=
  ⟨(c6_post_process_structure [[3]]).1,
   (c6_post_process_structure [[3]]).2.2.2.1 0 0 (by decide) (by decide)⟩

/-- C8: applying the mask post-processor twice to a constant-value mask
yields the same result as applying it once: dilation and box blur are the
identity on a uniform field, so the post-processor maps the constant mask
to the constant mask. -/
theorem c8_post_process_const_idempotent (m : Mat) (c : ℚ) (h w : ℕ)
    (h1 : 1 ≤ h) (h2 : 1 ≤ w) (hr : rectMat m h w = true) (hc : allValQ m c = true) :
    post_process_mask (post_process_mask m) = post_process_mask m ∧
    post_process_mask m = List.replicate h (List.replicate w c) := by
  have hpost := post_const m c h w h1 h2 hr hc
  have hrep := post_const (List.replicate h (List.replicate w c)) c h w h1 h2
    (rectMat_replicate h w c) (allValQ_replicate h w c)
  refine ⟨?_, hpost⟩
  rw [hpost, hrep]

theorem c8_witness :
    rectMat [[5]] 1 1 = true ∧ allValQ [[5]] 5 = true ∧
    post_process_mask (post_process_mask [[5]]) = post_process_mask [[5]] :=
  ⟨by decide, by decide,
   (c8_post_process_const_idempotent [[5]] 5 1 1 (by decide) (by decide)
      (by decide) (by decide)).1⟩

/-- C9: the horizontal mirror flip of the capture loop is an involution:
flipping any frame twice returns the original frame exactly. -/
theorem c9_mirror_involution (img : Image) : hflip (hflip img) = img := by
  unfold hflip
  rw [List.map_map]
  have : (List.reverse ∘ List.reverse : List Pix → List Pix) = id := by
    funext l
    simp
  rw [this, List.map_id]

/-! Mask-weight lemmas for claim C2 and retry-loop lemmas for claim C3. -/

theorem u8castQ_one : u8castQ 1 = 1 := by
  have h := u8castQ_natCast 1 (by norm_num)
  simpa using h

theorem u8castQ_zero : u8castQ 0 = 0 := by
  have h := u8castQ_natCast 0 (by norm_num)
  simpa using h

theorem compositeCh_255_1_0 : compositeCh 255 1 0 = 255 := by
  unfold compositeCh
  rw [u8castQ_one, u8castQ_zero]
  have heq : (1 : ℚ) * 255 + 0 * (1 - 255) = 255 := by norm_num
  rw [heq]
  have h := u8castQ_natCast 255 (by norm_num)
  simpa using h

/-- C2 is false as stated on the code: the pipeline applies no 255-to-1
normalization of the mask before blending.  With a solid frame of channel
value 1, a mask of all 255s (which dilation and blur keep at exactly 255)
and a solid background of 0s, the blend weight is the raw 255.0, so each
output channel is 1 * 255 + 0 * (1 - 255) = 255, not the foreground
value 1. -/
theorem c2_cex :
    get_frame id (fun _ => 0) (fun _ => some [[255]]) [[[1, 1, 1]]]
      (some [[[0, 0, 0]]]) false 1 = some [[[255, 255, 255]]] ∧
    ([[[255, 255, 255]]] : Image) ≠ [[[1, 1, 1]]] := by
  constructor
  · show some (composite [[[1, 1, 1]]] (post_process_mask [[255]]) [[[0, 0, 0]]]) = _
    rw [post_const [[255]] 255 1 1 (by decide) (by decide) (by decide) (by decide)]
    show some (composite [[[1, 1, 1]]] [[255]] [[[0, 0, 0]]]) = _
    simp [composite, compositeRow, compositePixel, compositeCh_255_1_0]
  · decide

/-- C2 (amended): no normalization from [0, 255] to [0, 1] is applied to
the mask; its post-processed values are used directly as floating-point
blend weights.  Consequently a mask byte of 1 — not 255 — acts as blend
weight 1.0: with a mask of all 1s (which dilation and blur keep at exactly
1), the pipeline composite equals the foreground frame exactly, while a
mask byte of 255 acts as weight 255.0 and wraps the stored uint8 channels
(see the counterexample). -/
theorem c2_no_normalization (gauss : Image → Image) (rand : ℕ → ℚ)
    (f b : Image) (m : Mat) (h w : ℕ) (h1 : 1 ≤ h) (h2 : 1 ≤ w)
    (hrm : rectMat m h w = true) (hones : allValQ m 1 = true)
    (hd : dims3 f (List.replicate h (List.replicate w (1 : ℚ))) b = true)
    (hf : isU8Image f = true) (fuel : ℕ) (attempts : ℕ → Option Mat)
    (hatt : retryMask attempts fuel 0 = some m) :
    get_frame gauss rand attempts f (some b) false fuel = some f := by
  unfold get_frame
  rw [hatt]
  show some (composite f (post_process_mask m) b) = some f
  rw [post_const m 1 h w h1 h2 hrm hones,
    composite_ones f _ b hd (allValQ_replicate h w 1) hf]

theorem c2_witness :
    get_frame id (fun _ => 0) (fun _ => some [[1]]) [[[9, 8, 7]]]
      (some [[[1, 2, 3]]]) false 1 = some [[[9, 8, 7]]] :=
  c2_no_normalization id (fun _ => 0) [[[9, 8, 7]]] [[[1, 2, 3]]] [[1]] 1 1
    (by decide) (by decide) (by decide) (by decide) (by decide) (by decide) 1
    (fun _ => some [[1]]) rfl

theorem retryMask_none (attempts : ℕ → Option Mat) (h : ∀ k, attempts k = none) :
    ∀ fuel s, retryMask attempts fuel s = none := by
  intro fuel
  induction fuel with
  | zero => intro s; rfl
  | succ g ih =>
    intro s
    unfold retryMask
    rw [h s]
    exact ih (s + 1)

theorem retryMask_first (attempts : ℕ → Option Mat) (m : Mat) :
    ∀ n fuel s, (∀ k, k < n → attempts (s + k) = none) → attempts (s + n) = some m →
      n < fuel → retryMask attempts fuel s = some m := by
  intro n
  induction n with
  | zero =>
    intro fuel s hnone hs hfuel
    cases fuel with
    | zero => omega
    | succ g =>
      unfold retryMask
      rw [show s + 0 = s from rfl] at hs
      rw [hs]
  | succ n ih =>
    intro fuel s hnone hs hfuel
    cases fuel with
    | zero => omega
    | succ g =>
      unfold retryMask
      rw [show attempts s = none from by simpa using hnone 0 (by omega)]
      exact ih g (s + 1)
        (fun k hk => by
          have := hnone (k + 1) (by omega)
          simpa [Nat.add_assoc, Nat.add_comm 1 k] using this)
        (by
          have : s + 1 + n = s + (n + 1) := by omega
          rw [this]; exact hs)
        (by omega)

/-- C3: every failure of a mask-retrieval attempt is caught and the request
retried immediately and without limit — the loop returns the first
successful attempt no matter how many failures precede it, returns nothing
when every attempt fails (blocking the frame), and get_frame produces an
output only when a mask was obtained, in which case the output is the fully
composited frame (no degraded or partial path). -/
theorem c3_retry_policy (attempts : ℕ → Option Mat) (fuel n : ℕ) (m : Mat) :
    ((∀ k, attempts k = none) → retryMask attempts fuel 0 = none) ∧
    ((∀ k, k < n → attempts k = none) → attempts n = some m → n < fuel →
      retryMask attempts fuel 0 = some m) ∧
    (∀ gauss rand camF bg holo out,
      get_frame gauss rand attempts camF bg holo fuel = some out →
      ∃ mk, retryMask attempts fuel 0 = some mk ∧
        out = composite (if holo then hologram_effect rand camF else camF)
          (post_process_mask mk) (bg.getD (gauss camF))) := by
  refine ⟨fun h => retryMask_none attempts h fuel 0, ?_, ?_⟩
  · intro hnone hn hfuel
    exact retryMask_first attempts m n fuel 0 (fun k hk => by simpa using hnone k hk)
      (by simpa using hn) hfuel
  · intro gauss rand camF bg holo out hout
    unfold get_frame at hout
    cases hr : retryMask attempts fuel 0 with
    | none => rw [hr] at hout; exact absurd hout (by simp)
    | some mk =>
      rw [hr] at hout
      exact ⟨mk, rfl, (Option.some.inj hout).symm⟩

theorem c3_witness :
    retryMask (fun _ => none) 3 0 = none ∧
    retryMask (fun k => if k == 2 then some [[7]] else none) 4 0 = some [[7]] :=
  ⟨(c3_retry_policy (fun _ => none) 3 0 []).1 (fun _ => rfl),
   (c3_retry_policy (fun k => if k == 2 then some [[7]] else none) 4 2 [[7]]).2.1
     (by decide) (by decide) (by decide)⟩

/-! Capture-loop lemmas for claims C5 and C7. -/

theorem resize_len (src : Image) (w h : ℕ) : (resize src w h).length = h := by
  unfold resize
  simp

theorem resize_rows (src : Image) (w h : ℕ) :
    ∀ row ∈ resize src w h, row.length = w := by
  intro row hrow
  unfold resize at hrow
  rw [List.mem_map] at hrow
  obtain ⟨i, -, rfl⟩ := hrow
  simp

theorem bgInv_of_resized (w h : ℕ) (ob : Option Image) (hol mir : Bool) :
    bgInv w h ⟨ob.map (fun img => resize img w h), hol, mir⟩ = true := by
  cases ob with
  | none => rfl
  | some img =>
    show bgInv w h ⟨some (resize img w h), hol, mir⟩ = true
    unfold bgInv
    simp only [Bool.and_eq_true, beq_iff_eq, List.all_eq_true]
    exact ⟨resize_len img w h, fun row hrow => by
      simpa using resize_rows img w h row hrow⟩

/-- C7: resizing any source background image to the output resolution
(w, h) yields an image of exactly h rows of w pixels; the background held
by the capture loop — resized at startup and again on every
reconfiguration message that carries an image — therefore satisfies the
resolution invariant before every blend, and one loop iteration preserves
that invariant. -/
theorem c7_background_resolution (src : Image) (w h : ℕ)
    (gauss : Image → Image) (rand : ℕ → ℚ) (attempts : ℕ → Option Mat)
    (camF : Image) (st : LoopState) (queue : List QueueDict) (fuel : ℕ)
    (bg0 : Option Image) (hol mir : Bool) :
    (resize src w h).length = h ∧
    (∀ row ∈ resize src w h, row.length = w) ∧
    bgInv w h (initState bg0 hol mir w h) = true ∧
    (bgInv w h st = true →
      bgInv w h (loopStep gauss rand attempts w h camF st queue fuel).2.1 = true) := by
  refine ⟨resize_len src w h, resize_rows src w h, bgInv_of_resized w h bg0 hol mir, ?_⟩
  intro hst
  unfold loopStep
  cases hgf : get_frame gauss rand attempts camF st.background_scaled st.use_hologram fuel with
  | none => exact hst
  | some fr =>
    cases queue with
    | nil => exact hst
    | cons d rest => exact bgInv_of_resized w h d.background d.hologram d.mirror

theorem c7_witness :
    bgInv 1 1 ⟨some [[[1, 2, 3]]], false, false⟩ = true ∧
    (resize [[[1, 2, 3]], [[4, 5, 6]]] 1 1).length = 1 ∧
    bgInv 1 1 (loopStep id (fun _ => 0) (fun _ => none) 1 1 [[[0, 0, 0]]]
      ⟨some [[[1, 2, 3]]], false, false⟩ [] 0).2.1 = true :=
  ⟨by decide,
   (c7_background_resolution [[[1, 2, 3]], [[4, 5, 6]]] 1 1 id (fun _ => 0)
      (fun _ => none) [[[0, 0, 0]]] ⟨some [[[1, 2, 3]]], false, false⟩ [] 0
      (some [[[1, 2, 3]]]) false false).1,
   (c7_background_resolution [[[1, 2, 3]], [[4, 5, 6]]] 1 1 id (fun _ => 0)
      (fun _ => none) [[[0, 0, 0]]] ⟨some [[[1, 2, 3]]], false, false⟩ [] 0
      (some [[[1, 2, 3]]]) false false).2.2.2 (by decide)⟩

/-- C5: the capture loop polls the config queue non-blocking and consumes
at most one message per iteration (the produced queue is the input queue
or its tail), and after consuming the message { background: absent,
hologram: false, mirror: true } the next iteration publishes a
horizontally mirrored frame with no hologram effect, composited over the
blurred-current-frame background. -/
theorem c5_config_channel (gauss : Image → Image) (rand : ℕ → ℚ)
    (attempts : ℕ → Option Mat) (w h : ℕ) (camF : Image) (st : LoopState)
    (queue : List QueueDict) (fuel : ℕ) :
    ((loopStep gauss rand attempts w h camF st queue fuel).2.2 = queue ∨
     (loopStep gauss rand attempts w h camF st queue fuel).2.2 = queue.tail) ∧
    (∀ rest mk1, queue = ⟨none, false, true⟩ :: rest →
      retryMask attempts fuel 0 = some mk1 →
      (loopStep gauss rand attempts w h camF st queue fuel).2.1 =
        ⟨none, false, true⟩ ∧
      (loopStep gauss rand attempts w h camF st queue fuel).2.2 = rest ∧
      (∀ rand2 attempts2 camF2 m2 fuel2 queue2,
        retryMask attempts2 fuel2 0 = some m2 →
        (loopStep gauss rand2 attempts2 w h camF2
            (loopStep gauss rand attempts w h camF st queue fuel).2.1
            queue2 fuel2).1 =
          some (bgr2rgb (hflip
            (composite camF2 (post_process_mask m2) (gauss camF2)))))) := by
  have hnext : ∀ (rand2 : ℕ → ℚ) (attempts2 : ℕ → Option Mat) (camF2 : Image)
      (m2 : Mat) (fuel2 : ℕ) (queue2 : List QueueDict),
      retryMask attempts2 fuel2 0 = some m2 →
      (loopStep gauss rand2 attempts2 w h camF2 ⟨none, false, true⟩ queue2 fuel2).1 =
        some (bgr2rgb (hflip
          (composite camF2 (post_process_mask m2) (gauss camF2)))) := by
    intro rand2 attempts2 camF2 m2 fuel2 queue2 hret2
    have hgf2 : get_frame gauss rand2 attempts2 camF2 none false fuel2 =
        some (composite camF2 (post_process_mask m2) (gauss camF2)) := by
      unfold get_frame
      rw [hret2]
      rfl
    unfold loopStep
    rw [show (⟨none, false, true⟩ : LoopState).background_scaled = none from rfl,
      show (⟨none, false, true⟩ : LoopState).use_hologram = false from rfl]
    rw [hgf2]
    cases queue2 <;> rfl
  constructor
  · unfold loopStep
    cases hgf : get_frame gauss rand attempts camF st.background_scaled
        st.use_hologram fuel with
    | none => left; rfl
    | some fr =>
      cases queue with
      | nil => left; rfl
      | cons d rest => right; rfl
  · intro rest mk1 hq hret
    subst hq
    have hgf : get_frame gauss rand attempts camF st.background_scaled
        st.use_hologram fuel =
        some (composite (if st.use_hologram then hologram_effect rand camF else camF)
          (post_process_mask mk1) (st.background_scaled.getD (gauss camF))) := by
      unfold get_frame
      rw [hret]
    have hstate : (loopStep gauss rand attempts w h camF st
        (⟨none, false, true⟩ :: rest) fuel).2.1 = ⟨none, false, true⟩ := by
      unfold loopStep
      rw [hgf]
      rfl
    refine ⟨hstate, ?_, ?_⟩
    · unfold loopStep
      rw [hgf]
    · intro rand2 attempts2 camF2 m2 fuel2 queue2 hret2
      rw [hstate]
      exact hnext rand2 attempts2 camF2 m2 fuel2 queue2 hret2

theorem c5_witness :
    (loopStep id (fun _ => 0) (fun _ => some [[1]]) 1 1 [[[2, 2, 2]]]
      ⟨none, false, false⟩ [⟨none, false, true⟩] 1).2.1 = ⟨none, false, true⟩ ∧
    (loopStep id (fun _ => 0) (fun _ => some [[1]]) 1 1 [[[2, 2, 2]]]
      ⟨none, false, false⟩ [⟨none, false, true⟩] 1).2.2 = [] ∧
    (loopStep id (fun _ => 0) (fun _ => some [[3]]) 1 1 [[[4, 4, 4]]]
      ⟨none, false, true⟩ [] 1).1 =
      some (bgr2rgb (hflip
        (composite [[[4, 4, 4]]] (post_process_mask [[3]]) (id [[[4, 4, 4]]])))) := by
  have hmain := (c5_config_channel id (fun _ => 0) (fun _ => some [[1]]) 1 1
    [[[2, 2, 2]]] ⟨none, false, false⟩ [⟨none, false, true⟩] 1).2 [] [[1]] rfl rfl
  refine ⟨hmain.1, hmain.2.1, ?_⟩
  have h3 := hmain.2.2 (fun _ => 0) (fun _ => some [[3]]) [[[4, 4, 4]]] [[3]] 1 [] rfl
  rw [hmain.1] at h3
  exact h3

/-! Shift-image lemmas for claim C10. -/

theorem rectImg_iff (img : Image) (h w : ℕ) :
    rectImg img h w = true ↔ img.length = h ∧ ∀ r ∈ img, r.length = w := by
  simp [rectImg, List.all_eq_true]

theorem roll_length {α : Type} (k : ℤ) (l : List α) (d : α) :
    (roll k l d).length = l.length := by
  simp [roll]

theorem roll_getD {α : Type} (k : ℤ) (l : List α) (d : α) (i : ℕ) (hi : i < l.length) :
    (roll k l d).getD i d = l.getD ((((i : ℤ) - k) % (l.length : ℤ)).toNat) d := by
  unfold roll
  rw [getD_range_map, if_pos hi]

theorem shiftZero_length {α : Type} (z : α → α) (d : ℤ) (l : List α) (dflt : α) :
    (shiftZero z d l dflt).length = l.length := by
  simp [shiftZero]

theorem shiftZero_getD {α : Type} (z : α → α) (d : ℤ) (l : List α) (dflt : α)
    (i : ℕ) (hi : i < l.length) :
    (shiftZero z d l dflt).getD i dflt =
      if (0 < d ∧ (i : ℤ) < d) ∨ (d < 0 ∧ (l.length : ℤ) + d ≤ (i : ℤ)) then
        z (l.getD i dflt)
      else l.getD i dflt := by
  unfold shiftZero
  rw [getD_range_map, if_pos hi]

theorem zeroPix_mem (p : Pix) : ∀ v ∈ zeroPix p, v = 0 := by
  intro v hv
  rw [zeroPix, List.mem_map] at hv
  obtain ⟨x, -, rfl⟩ := hv
  rfl

/-- C10: the shift used by the hologram ghosting translates the image
content by (dx, dy) and fills the vacated rows and columns with zeros:
inside the translated region the shifted image agrees with the source
pixel, and outside it every channel is zero — nothing wraps around to the
opposite edge. -/
theorem c10_shift_translate_zero_fill (img : Image) (h w : ℕ) (dx dy : ℤ)
    (i j : ℕ) (hrect : rectImg img h w = true) (hi : i < h) (hj : j < w) :
    ((0 ≤ (i : ℤ) - dy ∧ (i : ℤ) - dy < (h : ℤ) ∧
        0 ≤ (j : ℤ) - dx ∧ (j : ℤ) - dx < (w : ℤ)) →
      pixAt (shift_image img dx dy) i j =
        pixAt img ((i : ℤ) - dy).toNat ((j : ℤ) - dx).toNat) ∧
    (¬(0 ≤ (i : ℤ) - dy ∧ (i : ℤ) - dy < (h : ℤ) ∧
        0 ≤ (j : ℤ) - dx ∧ (j : ℤ) - dx < (w : ℤ)) →
      ∀ v ∈ pixAt (shift_image img dx dy) i j, v = 0) := by
  obtain ⟨hlen, hrows⟩ := (rectImg_iff img h w).mp hrect
  subst hlen
  have hh0 : 0 < img.length := by omega
  have hhz : ((img.length : ℤ)) ≠ 0 := Int.natCast_ne_zero.mpr (by omega)
  have hmodi0 : 0 ≤ ((i : ℤ) - dy) % (img.length : ℤ) := Int.emod_nonneg _ hhz
  have hmodi1 : ((i : ℤ) - dy) % (img.length : ℤ) < (img.length : ℤ) :=
    Int.emod_lt_of_pos _ (by exact_mod_cast hh0)
  have hiSrc : (( ((i : ℤ) - dy) % (img.length : ℤ) ).toNat) < img.length := by omega
  have hrowA : (img.getD ((((i : ℤ) - dy) % (img.length : ℤ)).toNat) []).length = w :=
    hrows _ (getD_of_lt_mem img _ [] hiSrc)
  have hw0 : 0 < w := by omega
  have hwz : ((w : ℤ)) ≠ 0 := Int.natCast_ne_zero.mpr (by omega)
  have hmodj0 : 0 ≤ ((j : ℤ) - dx) % (w : ℤ) := Int.emod_nonneg _ hwz
  have hmodj1 : ((j : ℤ) - dx) % (w : ℤ) < (w : ℤ) :=
    Int.emod_lt_of_pos _ (by exact_mod_cast hw0)
  -- abbreviations for the stages of shift_image
  set rowA : List Pix := img.getD ((((i : ℤ) - dy) % (img.length : ℤ)).toNat) []
    with hrowAdef
  set p : Pix := rowA.getD ((((j : ℤ) - dx) % (w : ℤ)).toNat) [] with hpdef
  set r1 : Image := roll dy img [] with hr1def
  set r2 : Image := r1.map (fun row => roll dx row []) with hr2def
  set z1 : Image := shiftZero (fun row => row.map zeroPix) dy r2 [] with hz1def
  have hr1len : r1.length = img.length := roll_length dy img []
  have hr2len : r2.length = img.length := by rw [hr2def, List.length_map, hr1len]
  have hz1len : z1.length = img.length := by rw [hz1def, shiftZero_length, hr2len]
  have hCrow : r2.getD i [] = roll dx rowA [] := by
    rw [hr2def, getD_map_of_lt _ r1 i [] [] (by omega)]
    rw [hr1def, roll_getD dy img [] i (by omega)]
  have hrolllen : (roll dx rowA []).length = w := by rw [roll_length]; exact hrowA
  have hrollget : (roll dx rowA []).getD j [] = p := by
    rw [roll_getD dx rowA [] j (by omega), hpdef, hrowA]
  have hshift : shift_image img dx dy = z1.map (fun row => shiftZero zeroPix dx row []) := rfl
  have hA : pixAt (shift_image img dx dy) i j =
      (shiftZero zeroPix dx (z1.getD i []) []).getD j [] := by
    unfold pixAt
    rw [hshift, getD_map_of_lt _ z1 i [] [] (by omega)]
  have hB : z1.getD i [] =
      if (0 < dy ∧ (i : ℤ) < dy) ∨ (dy < 0 ∧ ((img.length : ℤ)) + dy ≤ (i : ℤ)) then
        (roll dx rowA []).map zeroPix
      else roll dx rowA [] := by
    rw [hz1def, shiftZero_getD _ dy r2 [] i (by omega), hr2len, hCrow]
  have hcore : pixAt (shift_image img dx dy) i j =
      if (0 < dx ∧ (j : ℤ) < dx) ∨ (dx < 0 ∧ ((w : ℤ)) + dx ≤ (j : ℤ)) then
        zeroPix (if (0 < dy ∧ (i : ℤ) < dy) ∨
            (dy < 0 ∧ ((img.length : ℤ)) + dy ≤ (i : ℤ)) then zeroPix p else p)
      else (if (0 < dy ∧ (i : ℤ) < dy) ∨
            (dy < 0 ∧ ((img.length : ℤ)) + dy ≤ (i : ℤ)) then zeroPix p else p) := by
    rw [hA, hB]
    by_cases hcy : (0 < dy ∧ (i : ℤ) < dy) ∨ (dy < 0 ∧ ((img.length : ℤ)) + dy ≤ (i : ℤ))
    · rw [if_pos hcy, if_pos hcy,
        shiftZero_getD zeroPix dx _ [] j (by rw [List.length_map, hrolllen]; omega),
        List.length_map, hrolllen,
        getD_map_of_lt zeroPix _ j [] [] (by omega), hrollget]
    · rw [if_neg hcy, if_neg hcy,
        shiftZero_getD zeroPix dx _ [] j (by rw [hrolllen]; omega),
        hrolllen, hrollget]
  constructor
  · rintro ⟨hd0, hd1, hd2, hd3⟩
    have hcy : ¬((0 < dy ∧ (i : ℤ) < dy) ∨
        (dy < 0 ∧ ((img.length : ℤ)) + dy ≤ (i : ℤ))) := by omega
    have hcx : ¬((0 < dx ∧ (j : ℤ) < dx) ∨ (dx < 0 ∧ ((w : ℤ)) + dx ≤ (j : ℤ))) := by
      omega
    rw [hcore, if_neg hcx, if_neg hcy]
    have hmi : ((i : ℤ) - dy) % (img.length : ℤ) = (i : ℤ) - dy :=
      Int.emod_eq_of_lt hd0 hd1
    have hmj : ((j : ℤ) - dx) % (w : ℤ) = (j : ℤ) - dx := Int.emod_eq_of_lt hd2 hd3
    rw [hpdef, hrowAdef, hmi, hmj]
    rfl
  · intro hout
    have hsplit : ((0 < dy ∧ (i : ℤ) < dy) ∨
        (dy < 0 ∧ ((img.length : ℤ)) + dy ≤ (i : ℤ))) ∨
        ((0 < dx ∧ (j : ℤ) < dx) ∨ (dx < 0 ∧ ((w : ℤ)) + dx ≤ (j : ℤ))) := by
      omega
    rw [hcore]
    by_cases hcx : (0 < dx ∧ (j : ℤ) < dx) ∨ (dx < 0 ∧ ((w : ℤ)) + dx ≤ (j : ℤ))
    · rw [if_pos hcx]
      exact zeroPix_mem _
    · rw [if_neg hcx]
      have hcy : (0 < dy ∧ (i : ℤ) < dy) ∨
          (dy < 0 ∧ ((img.length : ℤ)) + dy ≤ (i : ℤ)) := by
        rcases hsplit with hc | hc
        · exact hc
        · exact absurd hc hcx
      rw [if_pos hcy]
      exact zeroPix_mem _

theorem c10_witness :
    rectImg [[[1, 2, 3]], [[4, 5, 6]]] 2 1 = true ∧
    (∀ v ∈ pixAt (shift_image [[[1, 2, 3]], [[4, 5, 6]]] 0 1) 0 0, v = 0) ∧
    pixAt (shift_image [[[1, 2, 3]], [[4, 5, 6]]] 0 1) 1 0 =
      pixAt [[[1, 2, 3]], [[4, 5, 6]]] 0 0 :=
  ⟨by decide,
   (c10_shift_translate_zero_fill [[[1, 2, 3]], [[4, 5, 6]]] 2 1 0 1 0 0
      (by decide) (by decide) (by decide)).2 (by decide),
   (c10_shift_translate_zero_fill [[[1, 2, 3]], [[4, 5, 6]]] 2 1 0 1 1 0
      (by decide) (by decide) (by decide)).1 (by decide)⟩

/-! Halftone-loop lemmas for claim C4. -/

theorem drawIdx_succ (y : ℕ) :
    drawIdx (y + 1) = drawIdx y + (if y % 5 < 2 then 1 else 0) := by
  unfold drawIdx
  rw [Nat.min_def, Nat.min_def]
  split_ifs <;> omega

theorem halftoneAux_getD (rand : ℕ → ℚ) :
    ∀ (l : Image) (y t : ℕ), t < l.length →
      (halftoneAux rand y (drawIdx y) l).getD t [] =
        if (y + t) % 5 < 2 then scaleRow (rand (drawIdx (y + t))) (l.getD t [])
        else l.getD t [] := by
  intro l
  induction l with
  | nil => intro y t ht; simp at ht
  | cons row rows ih =>
    intro y t ht
    by_cases hy : y % 5 < 2
    · have hcond : y % (band_length + band_gap) < band_length := by
        simpa [band_length, band_gap] using hy
      have hstepeq : halftoneAux rand y (drawIdx y) (row :: rows) =
          if y % (band_length + band_gap) < band_length then
            scaleRow (rand (drawIdx y)) row ::
              halftoneAux rand (y + 1) (drawIdx y + 1) rows
          else row :: halftoneAux rand (y + 1) (drawIdx y) rows := rfl
      rw [hstepeq, if_pos hcond]
      have hk : drawIdx y + 1 = drawIdx (y + 1) := by
        rw [drawIdx_succ, if_pos hy]
      cases t with
      | zero =>
        simp only [List.getD_cons_zero, Nat.add_zero]
        rw [if_pos hy]
      | succ t =>
        simp only [List.getD_cons_succ]
        rw [hk, ih (y + 1) t (by simpa using ht)]
        have harith : y + 1 + t = y + (t + 1) := by omega
        rw [harith]
    · have hcond : ¬ y % (band_length + band_gap) < band_length := by
        simpa [band_length, band_gap] using hy
      have hstepeq : halftoneAux rand y (drawIdx y) (row :: rows) =
          if y % (band_length + band_gap) < band_length then
            scaleRow (rand (drawIdx y)) row ::
              halftoneAux rand (y + 1) (drawIdx y + 1) rows
          else row :: halftoneAux rand (y + 1) (drawIdx y) rows := rfl
      rw [hstepeq, if_neg hcond]
      have hk : drawIdx y = drawIdx (y + 1) := by
        rw [drawIdx_succ, if_neg hy]
        omega
      cases t with
      | zero =>
        simp only [List.getD_cons_zero, Nat.add_zero]
        rw [if_neg hy]
      | succ t =>
        simp only [List.getD_cons_succ]
        rw [hk, ih (y + 1) t (by simpa using ht)]
        have harith : y + 1 + t = y + (t + 1) := by omega
        rw [harith]

theorem halftone_getD_band (rand : ℕ → ℚ) (img : Image) (y : ℕ)
    (hy : y < img.length) (hb : y % 5 < 2) :
    (halftone rand img).getD y [] = scaleRow (rand (drawIdx y)) (img.getD y []) := by
  have h := halftoneAux_getD rand img 0 y hy
  rw [show drawIdx 0 = 0 from rfl] at h
  simp only [Nat.zero_add] at h
  show (halftoneAux rand 0 0 img).getD y [] = _
  rw [h, if_pos hb]

theorem halftone_getD_gap (rand : ℕ → ℚ) (img : Image) (y : ℕ)
    (hy : y < img.length) (hb : ¬ y % 5 < 2) :
    (halftone rand img).getD y [] = img.getD y [] := by
  have h := halftoneAux_getD rand img 0 y hy
  rw [show drawIdx 0 = 0 from rfl] at h
  simp only [Nat.zero_add] at h
  show (halftoneAux rand 0 0 img).getD y [] = _
  rw [h, if_neg hb]

/-- C4 is false as stated on the code: the halftone loop calls
np.random.uniform once per darkened row, not once per band, so the two
rows of one band are darkened by different factors.  Concretely, for a
frame whose rows 0 and 1 (both in the first band) are identical after the
WINTER colour map, a draw stream returning 0.1 then 0.3 darkens row 0 to
[[20, 10, 0]] and row 1 to [[61, 30, 0]] — under a single per-band factor
the two identical rows would stay identical. -/
theorem c4_cex :
    ((0 : ℕ) % (band_length + band_gap) < band_length ∧
     (1 : ℕ) % (band_length + band_gap) < band_length) ∧
    (applyColorMapWinter [[[100, 100, 100]], [[100, 100, 100]]]).getD 0 [] =
      (applyColorMapWinter [[[100, 100, 100]], [[100, 100, 100]]]).getD 1 [] ∧
    (halftone (fun k => if k = 0 then (1 : ℚ)/10 else 3/10)
        (applyColorMapWinter [[[100, 100, 100]], [[100, 100, 100]]])).getD 0 [] ≠
      (halftone (fun k => if k = 0 then (1 : ℚ)/10 else 3/10)
        (applyColorMapWinter [[[100, 100, 100]], [[100, 100, 100]]])).getD 1 [] := by
  have hC : applyColorMapWinter [[[100, 100, 100]], [[100, 100, 100]]] =
      [[[(205 : ℚ), 100, 0]], [[(205 : ℚ), 100, 0]]] := by decide
  refine ⟨⟨by decide, by decide⟩, by rw [hC]; rfl, ?_⟩
  rw [halftone_getD_band _ _ 0 (by rw [hC]; decide) (by decide),
    halftone_getD_band _ _ 1 (by rw [hC]; decide) (by decide), hC]
  have hr0 : (if drawIdx 0 = 0 then (1 : ℚ)/10 else 3/10) = 1/10 := rfl
  have hr1 : (if drawIdx 1 = 0 then (1 : ℚ)/10 else 3/10) = 3/10 := rfl
  rw [hr0, hr1]
  have e205a : u8castQ ((1 : ℚ)/10 * 205) = 20 := by
    rw [u8castQ_of_bounds ((1 : ℚ)/10 * 205) 20 (by norm_num) (by norm_num) (by norm_num)]
    norm_num
  have e100a : u8castQ ((1 : ℚ)/10 * 100) = 10 := by
    rw [u8castQ_of_bounds ((1 : ℚ)/10 * 100) 10 (by norm_num) (by norm_num) (by norm_num)]
    norm_num
  have e0a : u8castQ ((1 : ℚ)/10 * 0) = 0 := by
    rw [u8castQ_of_bounds ((1 : ℚ)/10 * 0) 0 (by norm_num) (by norm_num) (by norm_num)]
    norm_num
  have e205b : u8castQ ((3 : ℚ)/10 * 205) = 61 := by
    rw [u8castQ_of_bounds ((3 : ℚ)/10 * 205) 61 (by norm_num) (by norm_num) (by norm_num)]
    norm_num
  have e100b : u8castQ ((3 : ℚ)/10 * 100) = 30 := by
    rw [u8castQ_of_bounds ((3 : ℚ)/10 * 100) 30 (by norm_num) (by norm_num) (by norm_num)]
    norm_num
  have e0b : u8castQ ((3 : ℚ)/10 * 0) = 0 := by
    rw [u8castQ_of_bounds ((3 : ℚ)/10 * 0) 0 (by norm_num) (by norm_num) (by norm_num)]
    norm_num
  show scaleRow ((1 : ℚ)/10) [[(205 : ℚ), 100, 0]] ≠ scaleRow ((3 : ℚ)/10) [[(205 : ℚ), 100, 0]]
  simp only [scaleRow, List.map_cons, List.map_nil,
    e205a, e100a, e0a, e205b, e100b, e0b]
  decide

/-- C4 (amended): the hologram effect applies the fixed WINTER colour
remap, darkens each row y of a band (y mod 5 < 2) by its own random
factor — np.random.uniform is called once per darkened row, so row y uses
draw number 2*(y/5) + (y mod 5), and the two rows of a band get
independent draws — leaves gap rows unchanged, then blends two diagonally
shifted (+5,+5 and -5,-5) copies of the halftoned image over it at weights
0.2/0.8 and 0.4/0.6, and finally blends the result over the original
frame at weights 0.5/0.6. -/
theorem c4_hologram_structure (rand : ℕ → ℚ) (img : Image) :
    (hologram_effect rand img =
      addWeighted (5/10) img (6/10)
        (addWeighted (4/10)
          (addWeighted (2/10) (halftone rand (applyColorMapWinter img)) (8/10)
            (shift_image (halftone rand (applyColorMapWinter img)) 5 5) 0)
          (6/10)
          (shift_image (halftone rand (applyColorMapWinter img)) (-5) (-5)) 0) 0) ∧
    (∀ y, y < img.length → y % (band_length + band_gap) < band_length →
      (halftone rand (applyColorMapWinter img)).getD y [] =
        scaleRow (rand (2 * (y / 5) + y % 5)) ((applyColorMapWinter img).getD y [])) ∧
    (∀ y, y < img.length → ¬ y % (band_length + band_gap) < band_length →
      (halftone rand (applyColorMapWinter img)).getD y [] =
        (applyColorMapWinter img).getD y []) := by
  refine ⟨rfl, ?_, ?_⟩
  · intro y hy hb
    have hb5 : y % 5 < 2 := by simpa [band_length, band_gap] using hb
    have hlen : y < (applyColorMapWinter img).length := by
      simpa [applyColorMapWinter] using hy
    rw [halftone_getD_band rand _ y hlen hb5]
    have hidx : drawIdx y = 2 * (y / 5) + y % 5 := by
      unfold drawIdx
      have hmin : min (y % 5) 2 = y % 5 := Nat.min_eq_left (by omega)
      rw [hmin]
    rw [hidx]
  · intro y hy hb
    have hb5 : ¬ y % 5 < 2 := by simpa [band_length, band_gap] using hb
    have hlen : y < (applyColorMapWinter img).length := by
      simpa [applyColorMapWinter] using hy
    exact halftone_getD_gap rand _ y hlen hb5

theorem c4_witness :
    (halftone (fun _ => 0) (applyColorMapWinter [[[1, 1, 1]], [[2, 2, 2]], [[3, 3, 3]]])).getD 0 [] =
      scaleRow 0 ((applyColorMapWinter [[[1, 1, 1]], [[2, 2, 2]], [[3, 3, 3]]]).getD 0 []) ∧
    (halftone (fun _ => 0) (applyColorMapWinter [[[1, 1, 1]], [[2, 2, 2]], [[3, 3, 3]]])).getD 2 [] =
      (applyColorMapWinter [[[1, 1, 1]], [[2, 2, 2]], [[3, 3, 3]]]).getD 2 [] :=
  ⟨(c4_hologram_structure (fun _ => 0) [[[1, 1, 1]], [[2, 2, 2]], [[3, 3, 3]]]).2.1 0
     (by decide) (by decide),
   (c4_hologram_structure (fun _ => 0) [[[1, 1, 1]], [[2, 2, 2]], [[3, 3, 3]]]).2.2 2
     (by decide) (by decide)⟩

end Fakecam
